import Mathlib

/-!
Verification of the exact-rational core `BigRat`
(source: src/core/src/num/bigrat.rs).

Embedding conventions:
* The arbitrary-precision unsigned integer collaborator `BigUint` (declared in
  a sibling module that is not part of the sources) is modelled by `Nat`;
  its operations used here (add, sub with non-negative result, mul, div, gcd,
  pow) are the corresponding `Nat` operations.  Collaborator operations whose
  code is unavailable (`root_n`, `try_as_usize`, digit formatting) are
  modelled from the spec and marked as such.
* The cancellation probe `int: &impl Interrupt` is instantiated with the
  never-signalling probe (`interrupt::Never`), exactly as the `Add`/`Sub`
  convenience operators do in the source; interrupt errors therefore vanish
  and fallible operations return `Except String` (domain errors only).
* Unbounded `loop`/`while` constructs are modelled with an explicit fuel
  parameter; `none` means the fuel ran out.  Theorems exhibit sufficient fuel,
  which is how termination of the source loops is expressed.
-/

/-- `sign::Sign`. -/
inductive Sign where
  | Positive
  | Negative
deriving DecidableEq, BEq, Repr

/-- `Sign::flip`. -/
def Sign.flip : Sign → Sign
  | .Positive => .Negative
  | .Negative => .Positive

/-- `Sign::sign_of_product`. -/
def Sign.sign_of_product : Sign → Sign → Sign
  | .Positive, .Positive => .Positive
  | .Negative, .Negative => .Positive
  | .Positive, .Negative => .Negative
  | .Negative, .Positive => .Negative

/-- Interpretation of a sign tag as the factor `+1` / `-1` (used only to state
the value semantics of a fraction, not part of the source). -/
def Sign.toInt : Sign → Int
  | .Positive => 1
  | .Negative => -1

/-- `struct BigRat { sign, num, den }` with `BigUint` modelled by `Nat`. -/
structure BigRat where
  sign : Sign
  num : Nat
  den : Nat
deriving DecidableEq, Repr

deriving instance DecidableEq for Except

namespace BigRat

/-- `impl From<u64> for BigRat` / `impl From<BigUint> for BigRat`:
both produce `sign: Positive, num: the value, den: 1`. -/
def fromNat (n : Nat) : BigRat := ⟨.Positive, n, 1⟩

/-- `impl Neg for BigRat`. -/
def neg (x : BigRat) : BigRat := ⟨x.sign.flip, x.num, x.den⟩

/-- `BigRat::mul`. -/
def mul (a b : BigRat) : BigRat :=
  ⟨Sign.sign_of_product a.sign b.sign, a.num * b.num, a.den * b.den⟩

/-- `BigRat::div`: division-by-zero domain error when the divisor's numerator
is zero, otherwise the cross product, with no normalization. -/
def div (a b : BigRat) : Except String BigRat :=
  if b.num = 0 then .error "Attempt to divide by zero"
  else .ok ⟨Sign.sign_of_product a.sign b.sign, a.num * b.den, a.den * b.num⟩

/-- `BigRat::simplify`: cheap path when the denominator is already 1,
otherwise divide numerator and denominator by their gcd. -/
def simplify (x : BigRat) : BigRat :=
  if x.den = 1 then x
  else
    let g := Nat.gcd x.num x.den
    ⟨x.sign, x.num / g, x.den / g⟩

/-- The part of `BigRat::add_internal` below `assert_eq!(self.sign, Positive)`.
The source first reduces a negative left operand via `a + b == -((-a) + (-b))`
and recurses; the recursive call always enters the positive-left path (the
flipped sign is `Positive`), so the embedding factors that path out and
`add_internal` applies it directly instead of recursing. -/
def addInternalPos (a b : BigRat) : BigRat :=
  if a.den = b.den then
    if b.sign = .Negative ∧ a.num < b.num then
      ⟨.Negative, b.num - a.num, a.den⟩
    else
      ⟨.Positive, if b.sign = .Positive then a.num + b.num else a.num - b.num, a.den⟩
  else
    let g := Nat.gcd a.den b.den
    let newDenominator := a.den * b.den / g
    let na := a.num * b.den / g
    let nb := b.num * a.den / g
    if b.sign = .Negative ∧ na < nb then
      ⟨.Negative, nb - na, newDenominator⟩
    else
      ⟨.Positive, if b.sign = .Positive then na + nb else na - nb, newDenominator⟩

/-- `BigRat::add_internal` under the never-signalling probe (as used by the
`Add` and `Sub` operator impls, which `unwrap`). -/
def add_internal (a b : BigRat) : BigRat :=
  if a.sign = .Negative then neg (addInternalPos (neg a) (neg b))
  else addInternalPos a b

/-- `impl Sub for BigRat`: `self.add_internal(-rhs)`. -/
def sub (a b : BigRat) : BigRat := add_internal a (neg b)

/-- `impl Ord for BigRat::cmp`: compute `self - other`; `Equal` when the
difference's numerator is zero, otherwise ordered by the difference's sign. -/
def cmp (a b : BigRat) : Ordering :=
  let diff := sub a b
  if diff.num = 0 then .eq
  else if diff.sign = .Positive then .gt
  else .lt

/-- Modelled from the spec: `usize::MAX`, the largest machine integer
(64-bit target). -/
def usizeMax : Nat := 18446744073709551615

/-- Modelled from the spec: `BigUint::try_as_usize`, the collaborator's
conversion to a machine integer (its code is not among the sources); it
errors exactly when the value does not fit in a machine integer. -/
def natTryAsUsize (n : Nat) : Except String Nat :=
  if n ≤ usizeMax then .ok n else .error "Value too large for usize"

/-- `BigRat::try_as_usize`: simplify, error when the denominator is not 1,
otherwise convert the (unsigned) numerator. -/
def try_as_usize (x : BigRat) : Except String Nat :=
  let x := simplify x
  if x.den ≠ 1 then .error "Cannot convert fraction to integer"
  else natTryAsUsize x.num

/-- Modelled from the spec: `BigUint::root_n`, the collaborator's integer
n-th-root extraction (code not among the sources): it returns the floor of
the n-th root together with an exactness flag that is true exactly when the
root is exact. -/
def natRootN (v k : Nat) : Nat × Bool :=
  let r := (List.range (v + 1)).foldl (fun acc c => if c ^ k ≤ v then c else acc) 0
  (r, r ^ k == v)

mutual

/-- `BigRat::pow`: normalize both operands; a negative exponent flips the
sign, recurses and returns the reciprocal (exactness passed through); an
integer exponent raises numerator and denominator via the collaborator's
integer power; a fractional exponent takes the `root_n` of the integer
power. -/
def pow (a rhs : BigRat) : Except String (BigRat × Bool) :=
  let a' := simplify a
  let rhs' := simplify rhs
  if hneg : rhs'.sign = .Negative then
    match pow a' ⟨.Positive, rhs'.num, rhs'.den⟩ with
    | .error e => .error e
    | .ok (inverseRes, exact) =>
      match div (fromNat 1) inverseRes with
      | .error e => .error e
      | .ok r => .ok (r, exact)
  else
    let powRes : BigRat := ⟨.Positive, a'.num ^ rhs'.num, a'.den ^ rhs'.num⟩
    if hden : rhs'.den = 1 then .ok (powRes, true)
    else root_n powRes ⟨.Positive, rhs'.den, 1⟩
termination_by
  (if rhs.sign = .Negative then 320 else if (simplify rhs).den = 1 then 64 else 256 : Nat)
decreasing_by
· have hs : (simplify rhs).sign = rhs.sign := by unfold simplify; split <;> rfl
  rw [hs] at hneg
  rw [if_pos hneg]
  split
  · contradiction
  · split <;> decide
· have hs : (simplify rhs).sign = rhs.sign := by unfold simplify; split <;> rfl
  rw [hs] at hneg
  rw [if_neg hneg, if_neg hden]
  omega

/-- `BigRat::root_n`: error on a negative base sign tag or a non-integer or
negative root order; zero numerator returns the value unchanged (exact);
otherwise extract integer roots of numerator and denominator, falling back to
bisection (`iter_root_n`) for an inexact side. -/
def root_n (self n : BigRat) : Except String (BigRat × Bool) :=
  if self.sign = .Negative then
    .error "Can\x27t compute roots of negative numbers"
  else
    let n' := simplify n
    if n'.den ≠ 1 ∨ n'.sign = .Negative then
      .error "Can\x27t compute non-integer or negative roots"
    else if self.num = 0 then .ok (self, true)
    else
      let numRes := natRootN self.num n'.num
      let denRes := natRootN self.den n'.num
      if numRes.2 && denRes.2 then .ok (⟨.Positive, numRes.1, denRes.1⟩, true)
      else
        match (if numRes.2 then Except.ok (fromNat numRes.1)
               else iter_root_n (fromNat numRes.1) (fromNat self.num) n'.num) with
        | .error e => .error e
        | .ok numRat =>
          match (if denRes.2 then Except.ok (fromNat denRes.1)
                 else iter_root_n (fromNat denRes.1) (fromNat self.den) n'.num) with
          | .error e => .error e
          | .ok denRat =>
            match div numRat denRat with
            | .error e => .error e
            | .ok r => .ok (r, false)
termination_by (192 : Nat)
decreasing_by all_goals omega

/-- `BigRat::iter_root_n`.  The source receives the root order as the fraction
`Self::from(n)` for a `BigUint` value `n`; the embedding passes that `n`
directly as `k : Nat` and rebuilds `⟨Positive, k, 1⟩` where the source uses
the fraction, which is needed to see that the nested `pow` call takes the
integer-exponent path (that fact also underlies the source's termination). -/
def iter_root_n (lowBound val : BigRat) (k : Nat) : Except String BigRat :=
  match iterRootLoop 30 lowBound (add_internal lowBound (fromNat 1)) val k with
  | .error e => .error e
  | .ok (low, high) => div (add_internal low high) (fromNat 2)
termination_by (160 : Nat)
decreasing_by all_goals omega

/-- The 30-iteration bisection `for` loop inside `iter_root_n`: take the
midpoint `guess`, compare `guess.pow(n)` with the target and shrink the
bracket. -/
def iterRootLoop (fuel : Nat) (low high val : BigRat) (k : Nat) :
    Except String (BigRat × BigRat) :=
  match fuel with
  | 0 => .ok (low, high)
  | fuel + 1 =>
    match div (add_internal low high) (fromNat 2) with
    | .error e => .error e
    | .ok guess =>
      match pow guess ⟨.Positive, k, 1⟩ with
      | .error e => .error e
      | .ok (p, _) =>
        if cmp p val = .lt then iterRootLoop fuel guess high val k
        else iterRootLoop fuel low guess val k
termination_by (128 + fuel : Nat)
decreasing_by all_goals simp [simplify] <;> omega

end

/-- The `loop` inside `BigRat::terminates_in_base`, with fuel: multiply by the
base, simplify, and stop as soon as the denominator did not change. -/
def termLoopF (b : Nat) : Nat → BigRat → Option BigRat
  | 0, _ => none
  | fuel + 1, x =>
    let x' := simplify (mul x ⟨.Positive, b, 1⟩)
    if x'.den = x.den then some x'
    else termLoopF b fuel x'

/-- `BigRat::terminates_in_base` (the base is its digit value
`base.base_as_u8()`): run the loop, then report whether the stable
denominator is 1.  The fuel `x.den + 1` is sufficient: the denominator of
the iterate strictly decreases until it stabilizes
(`terminates_in_base_spec`). -/
def terminates_in_base (x : BigRat) (b : Nat) : Option Bool :=
  (termLoopF b (x.den + 1) x).map (fun r => r.den == 1)

/-- Follows the spec's words (the reference side of the refinement in claim
C8): the positional expansion of `num/den` in base `b` is finite, i.e. some
`(num/den) * b^k` is an integer. -/
def expansionFinite (x : BigRat) (b : Nat) : Prop :=
  ∃ k, x.den ∣ x.num * b ^ k

/-- Modelled from the spec: the character for one digit (positional digit
rendering of the collaborator). -/
def digitCharOf (d : Nat) : Char :=
  if d < 10 then Char.ofNat (48 + d) else Char.ofNat (87 + d)

/-- Digit list of `n` in base `b`, most significant first (fuel-structural;
fuel `n + 1` always suffices for `b ≥ 2`). -/
def natToBaseAux (b : Nat) : Nat → Nat → List Char
  | 0, _ => []
  | fuel + 1, n =>
    if n = 0 then []
    else natToBaseAux b fuel (n / b) ++ [digitCharOf (n % b)]

/-- Modelled from the spec: `BigUint::format`, the collaborator's positional
rendering of an unsigned integer in a given base (code not among the
sources). -/
def natFormatBase (n b : Nat) : String :=
  if n = 0 then "0" else String.mk (natToBaseAux b (n + 1) n)

/-- Modelled from the spec: `FormattingStyle` (declared in `crate::num`,
outside the sources): `ExactFraction | ExactFloat |
ExactFloatWithFractionFallback | ApproxFloat(precision)`. -/
inductive FormattingStyle where
  | ExactFraction
  | ExactFloat
  | ExactFloatWithFractionFallback
  | ApproxFloat (digits : Nat)
deriving DecidableEq, BEq

/-- The digit-production loop of `BigRat::format_trailing_digits`, with fuel.
The `HashMap<BigUint, usize>` of first-seen positions is modelled as an
association list with insert = cons and first-match lookup (same observable
insert-overwrites semantics); the output `String` is accumulated as a
`List Char`.  Exits: remainder reaches zero or the requested digit count is
reached (plain digits, exact iff the remainder is zero), or a remainder
recurs (prefix and parenthesized repeating part, exact). -/
def fmtLoopF (b den : Nat) :
    Nat → Nat → List (Nat × Nat) → Nat → Option Nat → List Char →
    Option (String × Bool)
  | 0, _, _, _, _, _ => none
  | fuel + 1, numerator, seen, pos, maxDigits, output =>
    if maxDigits.isSome || (List.lookup numerator seen).isNone then
      let seen' := (numerator, pos) :: seen
      let bnum := b * numerator
      let digit := bnum / den
      let numerator' := bnum - digit * den
      let output' := output ++ (natFormatBase digit b).data
      let pos' := pos + 1
      if numerator' == 0 || maxDigits == some pos' then
        some (String.mk output', numerator' == 0)
      else
        fmtLoopF b den fuel numerator' seen' pos' maxDigits output'
    else
      match List.lookup numerator seen with
      | some location =>
        some (String.mk (output.take location ++ '(' :: output.drop location ++ [')']), true)
      | none => none

/-- `BigRat::format` under the never-signalling probe, with the formatter
writes modelled as a returned `String` (`none` = some internal fuel ran out;
the chosen fuels are sufficient for the runs proved below).  Mirrors the
source: simplify; zero is never negative; integer fast path; termination
test; fraction style resolution; otherwise integer part, decimal point and
the trailing-digit loop. -/
def format (x : BigRat) (base : Nat) (style : FormattingStyle) (imag : Bool) :
    Option (String × Bool) :=
  let x := simplify x
  let negative := x.sign == Sign.Negative && !(cmp x (fromNat 0) == .eq)
  let x := if negative then (⟨.Positive, x.num, x.den⟩ : BigRat) else x
  if x.den = 1 then
    some ((if negative then "-" else "")
      ++ (if imag && (base == 10) && (x.num == 1) then "i"
          else natFormatBase x.num base
            ++ (if imag then (if 19 ≤ base then " " else "") ++ "i" else "")), true)
  else
    match terminates_in_base x base with
    | none => none
    | some terminating =>
      let fraction := style == .ExactFraction
        || (style == .ExactFloatWithFractionFallback && !terminating)
      if fraction then
        some ((if negative then "-" else "")
          ++ (if imag && (base == 10) && (x.num == 1) then "i"
              else natFormatBase x.num base
                ++ (if imag then (if 19 ≤ base then " " else "") ++ "i" else ""))
          ++ "/" ++ natFormatBase x.den base, true)
      else
        let numTrailingDigits : Option Nat :=
          if style == .ExactFloat || (style == .ExactFloatWithFractionFallback && terminating)
          then none
          else match style with
            | .ApproxFloat n => some n
            | _ => some 10
        let integerPart := x.num / x.den
        let integerAsRational : BigRat := ⟨.Positive, integerPart, 1⟩
        let remainingFraction := sub x integerAsRational
        let fuel := match numTrailingDigits with
          | some n => n + 1
          | none => remainingFraction.den + 2
        match fmtLoopF base remainingFraction.den fuel remainingFraction.num [] 0
            numTrailingDigits [] with
        | none => none
        | some (digits, exact) =>
          some ((if negative then "-" else "")
            ++ natFormatBase integerPart base ++ "." ++ digits
            ++ (if imag then (if 19 ≤ base then " " else "") ++ "i" else ""), exact)

/-- The rational value a stored fraction represents (value semantics used by
the theorems; `den = 0` never occurs under the data-model invariant). -/
def val (x : BigRat) : ℚ := (x.sign.toInt : ℚ) * (x.num : ℚ) / (x.den : ℚ)

/-! ### Helper lemmas about `simplify`, `neg` and the value semantics -/

theorem simplify_sign (x : BigRat) : (simplify x).sign = x.sign := by
  unfold simplify
  split <;> rfl

theorem simplify_of_den_one (x : BigRat) (h : x.den = 1) : simplify x = x := by
  simp [simplify, h]

theorem simplify_eq_of_den_ne_one (x : BigRat) (h : x.den ≠ 1) :
    simplify x = ⟨x.sign, x.num / Nat.gcd x.num x.den, x.den / Nat.gcd x.num x.den⟩ := by
  simp [simplify, h]

theorem simplify_idem (x : BigRat) : simplify (simplify x) = simplify x := by
  by_cases h1 : x.den = 1
  · rw [simplify_of_den_one x h1, simplify_of_den_one x h1]
  · rw [simplify_eq_of_den_ne_one x h1]
    by_cases hg0 : Nat.gcd x.num x.den = 0
    · have h0 := Nat.gcd_eq_zero_iff.mp hg0
      simp [simplify, h0.1, h0.2, hg0]
    · by_cases hd1 : x.den / Nat.gcd x.num x.den = 1
      · exact simplify_of_den_one _ hd1
      · have hco : Nat.gcd (x.num / Nat.gcd x.num x.den) (x.den / Nat.gcd x.num x.den) = 1 :=
          Nat.coprime_div_gcd_div_gcd (Nat.pos_of_ne_zero hg0)
        rw [simplify_eq_of_den_ne_one _ hd1]
        simp [hco]

theorem neg_sign (x : BigRat) : (neg x).sign = x.sign.flip := rfl

theorem neg_num (x : BigRat) : (neg x).num = x.num := rfl

theorem neg_den (x : BigRat) : (neg x).den = x.den := rfl

theorem val_neg (x : BigRat) : val (neg x) = -val x := by
  cases hs : x.sign <;> simp [val, neg, Sign.flip, Sign.toInt, hs] <;> ring

/-- Value of the shared sign-resolution shape of `add_internal`
(the inner `if` used in both the equal- and the distinct-denominator case). -/
theorem val_combine (s : Sign) (A B d : Nat) :
    val (if s = .Negative ∧ A < B then (⟨.Negative, B - A, d⟩ : BigRat)
         else ⟨.Positive, if s = .Positive then A + B else A - B, d⟩)
      = (A : ℚ) / (d : ℚ) + ((s.toInt : ℚ) * (B : ℚ)) / (d : ℚ) := by
  rcases s with _ | _
  · rw [if_neg (by simp)]
    simp only [val, Sign.toInt, if_pos rfl]
    push_cast
    ring
  · by_cases hAB : A < B
    · rw [if_pos ⟨rfl, hAB⟩]
      simp only [val, Sign.toInt]
      rw [Nat.cast_sub (le_of_lt hAB)]
      push_cast
      ring
    · rw [if_neg (by simp [hAB]), if_neg (by simp)]
      simp only [val, Sign.toInt]
      rw [Nat.cast_sub (le_of_not_lt hAB)]
      push_cast
      ring

theorem addInternalPos_val (a b : BigRat) (hs : a.sign = .Positive)
    (hda : a.den ≠ 0) (hdb : b.den ≠ 0) :
    val (addInternalPos a b) = val a + val b := by
  have hvala : val a = (a.num : ℚ) / (a.den : ℚ) := by
    simp [val, hs, Sign.toInt]
  have hvalb : val b = ((b.sign.toInt : ℚ) * (b.num : ℚ)) / (b.den : ℚ) := rfl
  by_cases hden : a.den = b.den
  · simp only [addInternalPos]
    rw [if_pos hden, val_combine, hvala, hvalb, hden]
  · simp only [addInternalPos]
    rw [if_neg hden, val_combine, hvala, hvalb]
    set g := Nat.gcd a.den b.den with hg
    have hg0 : g ≠ 0 := by
      intro h
      rw [hg] at h
      exact hda (Nat.gcd_eq_zero_iff.mp h).1
    have hgpos : 0 < g := Nat.pos_of_ne_zero hg0
    obtain ⟨da, hda2⟩ : g ∣ a.den := hg ▸ Nat.gcd_dvd_left a.den b.den
    obtain ⟨db, hdb2⟩ : g ∣ b.den := hg ▸ Nat.gcd_dvd_right a.den b.den
    have hda0 : da ≠ 0 := by
      intro h
      exact hda (by rw [hda2, h, Nat.mul_zero])
    have hdb0 : db ≠ 0 := by
      intro h
      exact hdb (by rw [hdb2, h, Nat.mul_zero])
    rw [hda2, hdb2]
    have c1 : a.num * (g * db) / g = a.num * db := by
      rw [Nat.mul_left_comm]
      exact Nat.mul_div_cancel_left _ hgpos
    have c2 : b.num * (g * da) / g = b.num * da := by
      rw [Nat.mul_left_comm]
      exact Nat.mul_div_cancel_left _ hgpos
    have c3 : g * da * (g * db) / g = g * (da * db) := by
      rw [show g * da * (g * db) = g * (g * (da * db)) by ring]
      exact Nat.mul_div_cancel_left _ hgpos
    rw [c1, c2, c3]
    have hgQ : ((g : ℚ)) ≠ 0 := Nat.cast_ne_zero.mpr hg0
    have hdaQ : ((da : ℚ)) ≠ 0 := Nat.cast_ne_zero.mpr hda0
    have hdbQ : ((db : ℚ)) ≠ 0 := Nat.cast_ne_zero.mpr hdb0
    push_cast
    field_simp
    ring

theorem add_internal_val (a b : BigRat) (hda : a.den ≠ 0) (hdb : b.den ≠ 0) :
    val (add_internal a b) = val a + val b := by
  unfold add_internal
  by_cases hsa : a.sign = .Negative
  · have h1 : (neg a).sign = .Positive := by simp [neg, Sign.flip, hsa]
    rw [if_pos hsa, val_neg, addInternalPos_val (neg a) (neg b) h1 hda hdb,
      val_neg, val_neg]
    ring
  · have h1 : a.sign = .Positive := by
      cases h : a.sign
      · rfl
      · exact absurd h hsa
    rw [if_neg hsa]
    exact addInternalPos_val a b h1 hda hdb

theorem sub_val (a b : BigRat) (hda : a.den ≠ 0) (hdb : b.den ≠ 0) :
    val (sub a b) = val a - val b := by
  unfold sub
  rw [add_internal_val a (neg b) hda hdb, val_neg]
  ring

theorem addInternalPos_den_ne (a b : BigRat) (hda : a.den ≠ 0) (hdb : b.den ≠ 0) :
    (addInternalPos a b).den ≠ 0 := by
  simp only [addInternalPos]
  by_cases hden : a.den = b.den
  · rw [if_pos hden]
    split <;> exact hda
  · rw [if_neg hden]
    have hg0 : Nat.gcd a.den b.den ≠ 0 := fun h => hda (Nat.gcd_eq_zero_iff.mp h).1
    have hprod : a.den * b.den ≠ 0 := Nat.mul_ne_zero hda hdb
    have hnew : a.den * b.den / Nat.gcd a.den b.den ≠ 0 := by
      have hle : Nat.gcd a.den b.den ≤ a.den * b.den :=
        Nat.le_of_dvd (Nat.pos_of_ne_zero hprod)
          (Dvd.dvd.mul_right (Nat.gcd_dvd_left _ _) _)
      exact Nat.ne_of_gt (Nat.div_pos hle (Nat.pos_of_ne_zero hg0))
    split <;> exact hnew

theorem add_internal_den_ne (a b : BigRat) (hda : a.den ≠ 0) (hdb : b.den ≠ 0) :
    (add_internal a b).den ≠ 0 := by
  unfold add_internal
  by_cases hsa : a.sign = .Negative
  · rw [if_pos hsa]
    exact addInternalPos_den_ne (neg a) (neg b) hda hdb
  · rw [if_neg hsa]
    exact addInternalPos_den_ne a b hda hdb

theorem sub_den_ne (a b : BigRat) (hda : a.den ≠ 0) (hdb : b.den ≠ 0) :
    (sub a b).den ≠ 0 :=
  add_internal_den_ne a (neg b) hda hdb

theorem val_zero_iff (y : BigRat) (hy : y.den ≠ 0) : val y = 0 ↔ y.num = 0 := by
  cases hs : y.sign <;>
    simp [val, hs, Sign.toInt, div_eq_zero_iff, Nat.cast_eq_zero, hy]

theorem val_pos_iff (y : BigRat) (hy : y.den ≠ 0) :
    0 < val y ↔ (y.num ≠ 0 ∧ y.sign = .Positive) := by
  have hd : (0 : ℚ) < (y.den : ℚ) := by exact_mod_cast Nat.pos_of_ne_zero hy
  have hval : val y = (y.sign.toInt : ℚ) * (y.num : ℚ) / (y.den : ℚ) := rfl
  cases hs : y.sign
  · constructor
    · intro h
      refine ⟨?_, rfl⟩
      intro h0
      rw [hval, hs, h0] at h
      simp only [Sign.toInt] at h
      norm_num at h
    · rintro ⟨h1, _⟩
      rw [hval, hs]
      simp only [Sign.toInt]
      have h2 : (0 : ℚ) < (y.num : ℚ) := by exact_mod_cast Nat.pos_of_ne_zero h1
      push_cast
      rw [one_mul]
      positivity
  · constructor
    · intro h
      exfalso
      rw [hval, hs] at h
      simp only [Sign.toInt] at h
      have h2 : (0 : ℚ) ≤ (y.num : ℚ) := Nat.cast_nonneg _
      have h3 : ((-1 : Int) : ℚ) * (y.num : ℚ) / (y.den : ℚ) ≤ 0 := by
        apply div_nonpos_of_nonpos_of_nonneg
        · push_cast
          linarith
        · positivity
      linarith
    · rintro ⟨_, h2⟩
      exact Sign.noConfusion h2

theorem val_neg_iff (y : BigRat) (hy : y.den ≠ 0) :
    val y < 0 ↔ (y.num ≠ 0 ∧ y.sign = .Negative) := by
  have hd : (0 : ℚ) < (y.den : ℚ) := by exact_mod_cast Nat.pos_of_ne_zero hy
  have hval : val y = (y.sign.toInt : ℚ) * (y.num : ℚ) / (y.den : ℚ) := rfl
  cases hs : y.sign
  · constructor
    · intro h
      exfalso
      rw [hval, hs] at h
      simp only [Sign.toInt] at h
      have h2 : (0 : ℚ) ≤ ((1 : Int) : ℚ) * (y.num : ℚ) / (y.den : ℚ) := by
        push_cast
        rw [one_mul]
        positivity
      linarith
    · rintro ⟨_, h2⟩
      exact Sign.noConfusion h2
  · constructor
    · intro h
      refine ⟨?_, rfl⟩
      intro h0
      rw [hval, hs, h0] at h
      simp only [Sign.toInt] at h
      norm_num at h
    · rintro ⟨h1, _⟩
      rw [hval, hs]
      simp only [Sign.toInt]
      have h2 : (0 : ℚ) < (y.num : ℚ) := by exact_mod_cast Nat.pos_of_ne_zero h1
      apply div_neg_of_neg_of_pos _ hd
      push_cast
      linarith

/-! ### Claims C1 (simplify), C2 (ordering), C3 (division), C10 (try_as_usize) -/

/-- Claim C1: for every fraction with a non-zero denominator, `simplify`
returns a value-equal fraction whose numerator and denominator are coprime,
whose denominator is at least 1 and whose sign is unchanged; when the input
denominator already equals 1 the input is returned unchanged. -/
theorem simplify_spec (x : BigRat) (hx : x.den ≠ 0) :
    val (simplify x) = val x ∧
    Nat.Coprime (simplify x).num (simplify x).den ∧
    1 ≤ (simplify x).den ∧
    (simplify x).sign = x.sign ∧
    (x.den = 1 → simplify x = x) := by
  by_cases h1 : x.den = 1
  · rw [simplify_of_den_one x h1]
    refine ⟨rfl, ?_, ?_, rfl, fun _ => rfl⟩
    · rw [Nat.Coprime, h1]
      exact Nat.gcd_one_right _
    · omega
  · set g := Nat.gcd x.num x.den with hg
    have hx1 : simplify x = ⟨x.sign, x.num / g, x.den / g⟩ :=
      simplify_eq_of_den_ne_one x h1
    have hg0 : g ≠ 0 := by
      intro h
      rw [hg] at h
      exact hx (Nat.gcd_eq_zero_iff.mp h).2
    have hgpos : 0 < g := Nat.pos_of_ne_zero hg0
    obtain ⟨n1, hn1⟩ : g ∣ x.num := by
      rw [hg]
      exact Nat.gcd_dvd_left _ _
    obtain ⟨d1, hd1⟩ : g ∣ x.den := by
      rw [hg]
      exact Nat.gcd_dvd_right _ _
    have hd10 : d1 ≠ 0 := by
      intro h
      exact hx (by rw [hd1, h, Nat.mul_zero])
    have e1 : x.num / g = n1 := by
      conv_lhs => rw [hn1]
      exact Nat.mul_div_cancel_left _ hgpos
    have e2 : x.den / g = d1 := by
      conv_lhs => rw [hd1]
      exact Nat.mul_div_cancel_left _ hgpos
    refine ⟨?_, ?_, ?_, ?_, fun h => absurd h h1⟩
    · rw [hx1]
      show (x.sign.toInt : ℚ) * ((x.num / g : Nat) : ℚ)
          / ((x.den / g : Nat) : ℚ) = val x
      rw [e1, e2, val]
      conv_rhs => rw [hn1, hd1]
      have hgQ : ((g : ℚ)) ≠ 0 := Nat.cast_ne_zero.mpr hg0
      have hd1Q : ((d1 : ℚ)) ≠ 0 := Nat.cast_ne_zero.mpr hd10
      push_cast
      field_simp
      ring
    · rw [hx1]
      show Nat.Coprime (x.num / g) (x.den / g)
      rw [hg]
      exact Nat.coprime_div_gcd_div_gcd (hg ▸ hgpos)
    · rw [hx1]
      show 1 ≤ x.den / g
      rw [e2]
      omega
    · rw [hx1]

/-- Witness for C1 at the unnormalized negative fraction `-6/4`. -/
theorem simplify_spec_witness :
    val (simplify ⟨.Negative, 6, 4⟩) = val ⟨.Negative, 6, 4⟩ ∧
    Nat.Coprime (simplify ⟨.Negative, 6, 4⟩).num (simplify ⟨.Negative, 6, 4⟩).den ∧
    1 ≤ (simplify ⟨.Negative, 6, 4⟩).den ∧
    (simplify ⟨.Negative, 6, 4⟩).sign = (⟨.Negative, 6, 4⟩ : BigRat).sign ∧
    ((⟨.Negative, 6, 4⟩ : BigRat).den = 1 → simplify ⟨.Negative, 6, 4⟩ = ⟨.Negative, 6, 4⟩) :=
  simplify_spec ⟨.Negative, 6, 4⟩ (by decide)

/-- Claim C2: for fractions with non-zero denominators (including fractions
not in lowest terms and zeros stored with either sign tag), `cmp` is the
total order of the represented rational values -- exactly one of `<`, `==`,
`>` holds -- and `cmp a b = Equal` iff the numerator of `a - b` is zero;
otherwise the result is given by the sign of `a - b`. -/
theorem cmp_total_order (a b : BigRat) (ha : a.den ≠ 0) (hb : b.den ≠ 0) :
    (cmp a b = .lt ↔ val a < val b) ∧
    (cmp a b = .eq ↔ val a = val b) ∧
    (cmp a b = .gt ↔ val b < val a) ∧
    (cmp a b = .eq ↔ (sub a b).num = 0) ∧
    ((sub a b).num ≠ 0 → (cmp a b = .gt ↔ (sub a b).sign = .Positive)) := by
  have hden : (sub a b).den ≠ 0 := sub_den_ne a b ha hb
  have hval : val (sub a b) = val a - val b := sub_val a b ha hb
  have h0 := val_zero_iff _ hden
  have hp := val_pos_iff _ hden
  have hn := val_neg_iff _ hden
  rw [hval] at h0 hp hn
  simp only [cmp]
  by_cases h1 : (sub a b).num = 0
  · have heq : val a = val b := by
      have := h0.mpr h1
      linarith
    rw [if_pos h1]
    exact ⟨iff_of_false (by decide) (by rw [heq]; exact lt_irrefl _),
      iff_of_true rfl heq,
      iff_of_false (by decide) (by rw [heq]; exact lt_irrefl _),
      iff_of_true rfl h1,
      fun hc => absurd h1 hc⟩
  · rw [if_neg h1]
    by_cases h2 : (sub a b).sign = .Positive
    · have hgt : val b < val a := by
        have := hp.mpr ⟨h1, h2⟩
        linarith
      rw [if_pos h2]
      exact ⟨iff_of_false (by decide) (not_lt.mpr (le_of_lt hgt)),
        iff_of_false (by decide) (ne_of_gt hgt),
        iff_of_true rfl hgt,
        iff_of_false (by decide) h1,
        fun _ => iff_of_true rfl h2⟩
    · have hsneg : (sub a b).sign = .Negative := by
        cases hsx : (sub a b).sign
        · exact absurd hsx h2
        · rfl
      have hlt : val a < val b := by
        have := hn.mpr ⟨h1, hsneg⟩
        linarith
      rw [if_neg h2]
      exact ⟨iff_of_true rfl hlt,
        iff_of_false (by decide) (ne_of_lt hlt),
        iff_of_false (by decide) (not_lt.mpr (le_of_lt hlt)),
        iff_of_false (by decide) h1,
        fun _ => iff_of_false (by decide) h2⟩

/-- Witness for C2 at the non-lowest-terms fraction `2/4` and a zero stored
with the `Negative` sign tag. -/
theorem cmp_total_order_witness :
    (cmp ⟨.Positive, 2, 4⟩ ⟨.Negative, 0, 1⟩ = .lt ↔
      val ⟨.Positive, 2, 4⟩ < val ⟨.Negative, 0, 1⟩) ∧
    (cmp ⟨.Positive, 2, 4⟩ ⟨.Negative, 0, 1⟩ = .eq ↔
      val ⟨.Positive, 2, 4⟩ = val ⟨.Negative, 0, 1⟩) ∧
    (cmp ⟨.Positive, 2, 4⟩ ⟨.Negative, 0, 1⟩ = .gt ↔
      val ⟨.Negative, 0, 1⟩ < val ⟨.Positive, 2, 4⟩) ∧
    (cmp ⟨.Positive, 2, 4⟩ ⟨.Negative, 0, 1⟩ = .eq ↔
      (sub ⟨.Positive, 2, 4⟩ ⟨.Negative, 0, 1⟩).num = 0) ∧
    ((sub ⟨.Positive, 2, 4⟩ ⟨.Negative, 0, 1⟩).num ≠ 0 →
      (cmp ⟨.Positive, 2, 4⟩ ⟨.Negative, 0, 1⟩ = .gt ↔
        (sub ⟨.Positive, 2, 4⟩ ⟨.Negative, 0, 1⟩).sign = .Positive)) :=
  cmp_total_order ⟨.Positive, 2, 4⟩ ⟨.Negative, 0, 1⟩ (by decide) (by decide)

/-- Claim C3: `div` raises the division-by-zero domain error iff the
divisor's numerator is zero; otherwise it returns, without normalizing, the
fraction with sign the product of the operand signs, numerator
`left.num * right.den` and denominator `left.den * right.num`. -/
theorem div_spec (a b : BigRat) :
    (div a b = .error "Attempt to divide by zero" ↔ b.num = 0) ∧
    (b.num ≠ 0 →
      div a b = .ok ⟨Sign.sign_of_product a.sign b.sign, a.num * b.den, a.den * b.num⟩) := by
  constructor
  · constructor
    · intro h
      by_contra hb
      unfold div at h
      rw [if_neg hb] at h
      exact Except.noConfusion h
    · intro h
      unfold div
      rw [if_pos h]
  · intro h
    unfold div
    rw [if_neg h]

/-- Witness for C3: the error case at divisor `0/1` and the regular case at
`1/1 ÷ (-2/3)`. -/
theorem div_spec_witness :
    div (fromNat 1) (fromNat 0) = .error "Attempt to divide by zero" ∧
    div (fromNat 1) ⟨.Negative, 2, 3⟩ = .ok ⟨.Negative, 3, 2⟩ :=
  ⟨(div_spec (fromNat 1) (fromNat 0)).1.mpr rfl,
   (div_spec (fromNat 1) ⟨.Negative, 2, 3⟩).2 (by decide)⟩

/-- Claim C10: `try_as_usize` ignores the stored sign: whenever the
simplified denominator is 1 and the simplified numerator fits in a machine
integer the conversion succeeds and returns the numerator's magnitude (even
for negative values); it errors only when the simplified denominator differs
from 1 or the numerator does not fit. -/
theorem try_as_usize_spec (x : BigRat) :
    ((simplify x).den = 1 → (simplify x).num ≤ usizeMax →
      try_as_usize x = .ok (simplify x).num) ∧
    ((simplify x).den ≠ 1 →
      try_as_usize x = .error "Cannot convert fraction to integer") ∧
    ((simplify x).den = 1 → usizeMax < (simplify x).num →
      ∃ e, try_as_usize x = .error e) := by
  refine ⟨?_, ?_, ?_⟩
  · intro h1 h2
    simp only [try_as_usize]
    rw [if_neg (by simp [h1])]
    unfold natTryAsUsize
    rw [if_pos h2]
  · intro h1
    simp only [try_as_usize]
    rw [if_pos h1]
  · intro h1 h2
    simp only [try_as_usize]
    rw [if_neg (by simp [h1])]
    unfold natTryAsUsize
    rw [if_neg (by omega)]
    exact ⟨_, rfl⟩

/-- Witness for C10: the negative integer `-3` converts to the machine
integer `3`. -/
theorem try_as_usize_spec_witness :
    try_as_usize ⟨.Negative, 3, 1⟩ = .ok 3 :=
  (try_as_usize_spec ⟨.Negative, 3, 1⟩).1 rfl (by decide)


/-! ### Claim C8: the termination test -/

theorem simplify_den_dvd (x : BigRat) : (simplify x).den ∣ x.den := by
  by_cases h : x.den = 1
  · rw [simplify_of_den_one x h]
  · rw [simplify_eq_of_den_ne_one x h]
    exact Nat.div_dvd_of_dvd (Nat.gcd_dvd_right _ _)

/-- `simplify` preserves finiteness of the positional expansion. -/
theorem simplify_expansion (x : BigRat) (b : Nat) (hx : x.den ≠ 0) :
    expansionFinite (simplify x) b ↔ expansionFinite x b := by
  by_cases h : x.den = 1
  · rw [simplify_of_den_one x h]
  · rw [simplify_eq_of_den_ne_one x h]
    unfold expansionFinite
    set g := Nat.gcd x.num x.den with hg
    have hg0 : g ≠ 0 := by
      intro hc
      rw [hg] at hc
      exact hx (Nat.gcd_eq_zero_iff.mp hc).2
    have hgpos : 0 < g := Nat.pos_of_ne_zero hg0
    obtain ⟨n1, hn1⟩ : g ∣ x.num := by
      rw [hg]
      exact Nat.gcd_dvd_left _ _
    obtain ⟨d1, hd1⟩ : g ∣ x.den := by
      rw [hg]
      exact Nat.gcd_dvd_right _ _
    have e1 : x.num / g = n1 := by
      conv_lhs => rw [hn1]
      exact Nat.mul_div_cancel_left _ hgpos
    have e2 : x.den / g = d1 := by
      conv_lhs => rw [hd1]
      exact Nat.mul_div_cancel_left _ hgpos
    simp only [e1, e2]
    constructor
    · rintro ⟨k, hk⟩
      refine ⟨k, ?_⟩
      rw [hn1, hd1]
      calc g * d1 ∣ g * (n1 * b ^ k) := Nat.mul_dvd_mul_left g hk
        _ = g * n1 * b ^ k := by ring
    · rintro ⟨k, hk⟩
      refine ⟨k, ?_⟩
      rw [hn1, hd1] at hk
      have hk2 : g * d1 ∣ g * (n1 * b ^ k) := by
        rw [show g * (n1 * b ^ k) = g * n1 * b ^ k by ring]
        exact hk
      exact (Nat.mul_dvd_mul_iff_left hgpos).mp hk2

/-- Multiplying by the (integer) base preserves finiteness of the
positional expansion. -/
theorem mul_base_expansion (x : BigRat) (b : Nat) :
    expansionFinite (mul x ⟨.Positive, b, 1⟩) b ↔ expansionFinite x b := by
  unfold expansionFinite mul
  simp only [Nat.mul_one]
  constructor
  · rintro ⟨k, hk⟩
    refine ⟨k + 1, ?_⟩
    rw [show x.num * b ^ (k + 1) = x.num * b * b ^ k by ring]
    exact hk
  · rintro ⟨k, hk⟩
    refine ⟨k, ?_⟩
    calc x.den ∣ x.num * b ^ k := hk
      _ ∣ x.num * b * b ^ k := ⟨b, by ring⟩

/-- At a stable denominator the iterate's denominator is 1 exactly when its
expansion is finite. -/
theorem termStep_stable (x : BigRat) (b : Nat) (hx : x.den ≠ 0)
    (hstep : (simplify (mul x ⟨.Positive, b, 1⟩)).den = x.den) :
    ((simplify (mul x ⟨.Positive, b, 1⟩)).den = 1 ↔
      expansionFinite (simplify (mul x ⟨.Positive, b, 1⟩)) b) := by
  set y := mul x ⟨.Positive, b, 1⟩ with hy
  have hynum : y.num = x.num * b := by rw [hy]; rfl
  have hyden : y.den = x.den := by
    rw [hy]
    show x.den * 1 = x.den
    exact Nat.mul_one _
  by_cases h1 : y.den = 1
  · rw [simplify_of_den_one y h1]
    exact iff_of_true h1 ⟨0, by rw [h1]; exact one_dvd _⟩
  · rw [simplify_eq_of_den_ne_one y h1] at hstep ⊢
    set g := Nat.gcd y.num y.den with hg
    have hy0 : y.den ≠ 0 := by rw [hyden]; exact hx
    have hg0 : g ≠ 0 := by
      intro hc
      rw [hg] at hc
      exact hy0 (Nat.gcd_eq_zero_iff.mp hc).2
    obtain ⟨c, hc⟩ : g ∣ y.den := by
      rw [hg]
      exact Nat.gcd_dvd_right _ _
    have hdivc : y.den / g = c := by
      conv_lhs => rw [hc]
      exact Nat.mul_div_cancel_left _ (Nat.pos_of_ne_zero hg0)
    have hstep2 : y.den / g = y.den := by
      show y.den / g = y.den
      calc y.den / g = (⟨y.sign, y.num / g, y.den / g⟩ : BigRat).den := rfl
        _ = x.den := hstep
        _ = y.den := hyden.symm
    have hg1 : g = 1 := by
      rw [hdivc] at hstep2
      rw [hstep2] at hc
      have : 1 * y.den = g * y.den := by rw [Nat.one_mul]; exact hc
      exact (Nat.eq_of_mul_eq_mul_right (Nat.pos_of_ne_zero hy0) this.symm)
    have hcop : Nat.Coprime y.num y.den := by
      rw [Nat.Coprime, ← hg, hg1]
    simp only [hg1, Nat.div_one]
    constructor
    · intro h
      exact ⟨0, by rw [h]; exact one_dvd _⟩
    · rintro ⟨k, hk⟩
      have hcop2 : Nat.Coprime y.den y.num := hcop.symm
      have hdvd : y.den ∣ b ^ k := hcop2.dvd_of_dvd_mul_left hk
      have hcopb : Nat.Coprime y.den b := by
        have : Nat.Coprime y.den (x.num * b) := by rw [← hynum]; exact hcop2
        exact Nat.Coprime.coprime_dvd_right (Dvd.intro_left x.num rfl) this
      have hcopbk : Nat.Coprime y.den (b ^ k) := hcopb.pow_right k
      exact Nat.eq_one_of_dvd_coprimes hcopbk dvd_rfl hdvd

/-- The loop of `terminates_in_base` reaches a stable denominator within
`x.den` iterations, and that stable denominator is 1 exactly when the
expansion of the input is finite. -/
theorem termLoopF_spec (b : Nat) :
    ∀ fuel (x : BigRat), x.den ≠ 0 → x.den ≤ fuel →
      ∃ r, termLoopF b fuel x = some r ∧ r.den ≠ 0 ∧
        ((r.den = 1) ↔ expansionFinite x b) := by
  intro fuel
  induction fuel with
  | zero =>
    intro x hx hle
    omega
  | succ fuel ih =>
    intro x hx hle
    have hmulden : (mul x ⟨.Positive, b, 1⟩).den = x.den := Nat.mul_one _
    have hdvd : (simplify (mul x ⟨.Positive, b, 1⟩)).den ∣ x.den := by
      rw [← hmulden]
      exact simplify_den_dvd _
    have hEiff : expansionFinite (simplify (mul x ⟨.Positive, b, 1⟩)) b ↔
        expansionFinite x b := by
      rw [simplify_expansion _ _ (by rw [hmulden]; exact hx)]
      exact mul_base_expansion x b
    by_cases hstable : (simplify (mul x ⟨.Positive, b, 1⟩)).den = x.den
    · refine ⟨simplify (mul x ⟨.Positive, b, 1⟩), ?_, ?_, ?_⟩
      · simp only [termLoopF]
        rw [if_pos hstable]
      · rw [hstable]
        exact hx
      · exact (termStep_stable x b hx hstable).trans hEiff
    · have hx0 : (simplify (mul x ⟨.Positive, b, 1⟩)).den ≠ 0 := by
        intro h
        rw [h] at hdvd
        exact hx (Nat.eq_zero_of_zero_dvd hdvd)
      have hlt : (simplify (mul x ⟨.Positive, b, 1⟩)).den < x.den :=
        Nat.lt_of_le_of_ne (Nat.le_of_dvd (Nat.pos_of_ne_zero hx) hdvd) hstable
      obtain ⟨r, hr1, hr2, hr3⟩ := ih (simplify (mul x ⟨.Positive, b, 1⟩)) hx0 (by omega)
      refine ⟨r, ?_, hr2, hr3.trans hEiff⟩
      simp only [termLoopF]
      rw [if_neg hstable]
      exact hr1

/-- Claim C8: for every fraction with non-zero denominator and every base
`b ≥ 2`, the termination test terminates (fuel `x.den + 1` always suffices)
and reports `true` exactly when the fraction's positional expansion in that
base is finite. -/
theorem terminates_in_base_spec (x : BigRat) (b : Nat) (hx : x.den ≠ 0)
    (hb : 2 ≤ b) :
    ∃ t : Bool, terminates_in_base x b = some t ∧
      (t = true ↔ expansionFinite x b) := by
  obtain ⟨r, hr1, _, hr3⟩ := termLoopF_spec b (x.den + 1) x hx (by omega)
  refine ⟨r.den == 1, ?_, ?_⟩
  · unfold terminates_in_base
    rw [hr1]
    rfl
  · rw [beq_iff_eq]
    exact hr3

/-- Witness for C8 at `1/3` in base 10. -/
theorem terminates_in_base_spec_witness :
    ∃ t : Bool, terminates_in_base ⟨.Positive, 1, 3⟩ 10 = some t ∧
      (t = true ↔ expansionFinite ⟨.Positive, 1, 3⟩ 10) :=
  terminates_in_base_spec ⟨.Positive, 1, 3⟩ 10 (by decide) (by decide)


/-! ### Claim C6: the `ApproxFloat` digit loop -/

theorem natToBaseAux_single (b fuel n : Nat) (h : n < b) (hn : n ≠ 0) :
    natToBaseAux b (fuel + 1) n = [digitCharOf (n % b)] := by
  cases fuel <;> simp [natToBaseAux, hn, Nat.div_eq_of_lt h]

theorem natFormatBase_length_one (d b : Nat) (h : d < b) :
    (natFormatBase d b).length = 1 := by
  by_cases hd : d = 0
  · subst hd
    rfl
  · obtain ⟨m, rfl⟩ : ∃ m, d = m + 1 := ⟨d - 1, by omega⟩
    unfold natFormatBase
    rw [if_neg hd, natToBaseAux_single b (m + 1) (m + 1) h hd]
    rfl

/-- Claim C6 (divergence at the failing input): with `max_digits = Some 0`
(style `ApproxFloat(0)`) on the non-terminating remainder `1/3` in base 10,
the digit loop never exits -- no amount of fuel produces a result -- because
the cutoff check `max_digits == Some(pos)` runs only after `pos` has been
incremented to at least 1, and the remainder never reaches zero. -/
theorem approx_float_zero_diverges :
    ∀ fuel pos seen output, fmtLoopF 10 3 fuel 1 seen pos (some 0) output = none := by
  intro fuel
  induction fuel with
  | zero =>
    intro pos seen output
    rfl
  | succ fuel ih =>
    intro pos seen output
    simp only [fmtLoopF, Option.isSome_some, Bool.true_or, if_true]
    norm_num
    exact ih (pos + 1) _ _

/-- For a requested digit count `n ≥ 1` (style `ApproxFloat(n)` with positive
`n`) the digit loop terminates within `n` units of fuel, appends at most
`n - pos` digits, and reports exact only when the remainder reached zero
among the printed digits. -/
theorem fmtLoopF_approx_spec (b den n : Nat) (hb : 0 < b) (hden : 0 < den) :
    ∀ fuel num pos seen output, num < den → pos < n → n - pos ≤ fuel →
      ∃ digits ex,
        fmtLoopF b den fuel num seen pos (some n) output = some (digits, ex) ∧
        digits.length ≤ output.length + (n - pos) ∧
        (ex = true → ∃ j, 1 ≤ j ∧ j ≤ n - pos ∧ num * b ^ j % den = 0) := by
  intro fuel
  induction fuel with
  | zero =>
    intro num pos seen output h1 h2 h3
    omega
  | succ fuel ih =>
    intro num pos seen output hnum hpos hfuel
    simp only [fmtLoopF, Option.isSome_some, Bool.true_or, if_true]
    set digit := b * num / den with hdig
    set num2 := b * num - digit * den with hnum2
    have hmod : num2 = b * num % den := by
      rw [hnum2, hdig]
      have h1 := Nat.mod_add_div (b * num) den
      have h2 : den * (b * num / den) = b * num / den * den := Nat.mul_comm _ _
      omega
    have hnum2lt : num2 < den := by
      rw [hmod]
      exact Nat.mod_lt _ hden
    have hdiglt : digit < b := by
      rw [hdig, Nat.div_lt_iff_lt_mul hden]
      exact (mul_lt_mul_left hb).mpr hnum
    have hlen1 : (natFormatBase digit b).data.length = 1 :=
      natFormatBase_length_one digit b hdiglt
    by_cases hz : num2 = 0
    · rw [if_pos (by simp [hz])]
      refine ⟨_, _, rfl, ?_, ?_⟩
      · show (String.mk (output ++ (natFormatBase digit b).data)).length ≤ _
        simp only [String.length, List.length_append, hlen1]
        omega
      · intro _
        refine ⟨1, le_refl 1, by omega, ?_⟩
        rw [pow_one, Nat.mul_comm, ← hmod]
        exact hz
    · by_cases hstop : n = pos + 1
      · rw [if_pos (by simp [hstop])]
        refine ⟨_, _, rfl, ?_, ?_⟩
        · show (String.mk (output ++ (natFormatBase digit b).data)).length ≤ _
          simp only [String.length, List.length_append, hlen1]
          omega
        · intro hex
          exfalso
          simp only [beq_iff_eq] at hex
          exact hz hex
      · rw [if_neg (by simp [hz, hstop])]
        obtain ⟨digits, ex, heq, hlen2, hex⟩ :=
          ih num2 (pos + 1) ((num, pos) :: seen) (output ++ (natFormatBase digit b).data)
            hnum2lt (by omega) (by omega)
        refine ⟨digits, ex, heq, ?_, ?_⟩
        · rw [List.length_append, hlen1] at hlen2
          omega
        · intro hx
          obtain ⟨j, hj1, hj2, hj3⟩ := hex hx
          refine ⟨j + 1, by omega, by omega, ?_⟩
          have hcong : b * num ≡ num2 [MOD den] := by
            rw [hmod]
            exact (Nat.mod_modEq _ _).symm
          have hcong2 : b * num * b ^ j ≡ num2 * b ^ j [MOD den] :=
            Nat.ModEq.mul_right _ hcong
          have heq2 : num * b ^ (j + 1) % den = num2 * b ^ j % den := by
            rw [show num * b ^ (j + 1) = b * num * b ^ j by ring]
            exact hcong2
          rw [heq2]
          exact hj3

/-- The digit loop under `ApproxFloat(n)` for `n ≥ 1`: fuel `n` suffices, at
most `n` digits are printed, and a truncation before the remainder reaches
zero is reported inexact (supporting result for claim C6; the claim itself
fails at `n = 0`, see `approx_float_zero_diverges`). -/
theorem fmtLoopF_approx_digit_limit (b den num n : Nat) (hb : 0 < b)
    (hden : 0 < den) (hnum : num < den) (hn : 1 ≤ n) :
    ∃ digits ex,
      fmtLoopF b den n num [] 0 (some n) [] = some (digits, ex) ∧
      digits.length ≤ n ∧
      (ex = true → ∃ j, 1 ≤ j ∧ j ≤ n ∧ num * b ^ j % den = 0) := by
  obtain ⟨digits, ex, heq, hlen, hex⟩ :=
    fmtLoopF_approx_spec b den n hb hden n num 0 [] [] hnum (by omega) (by omega)
  refine ⟨digits, ex, heq, by simpa using hlen, ?_⟩
  intro hx
  obtain ⟨j, hj1, hj2, hj3⟩ := hex hx
  exact ⟨j, hj1, by omega, hj3⟩

/-! ### Claims C4, C7, C9: `root_n` and `pow` -/

theorem pow_simplify_left (a rhs : BigRat) : pow (simplify a) rhs = pow a rhs := by
  conv_lhs => rw [pow.eq_def]
  conv_rhs => rw [pow.eq_def]
  simp only [simplify_idem]

/-- Claim C7: for every fraction `a` and positive integer `n`,
`pow(a, -n)` is the reciprocal of `pow(a, n)`: the negative-exponent case
flips the exponent's sign, recurses, divides 1 by the recursive result
(propagating any division error) and passes the exactness flag through
unchanged. -/
theorem pow_neg_reciprocal (a : BigRat) (n : Nat) (hn : 0 < n) :
    pow a ⟨.Negative, n, 1⟩ =
      (pow a ⟨.Positive, n, 1⟩).bind
        (fun p => (div (fromNat 1) p.1).map (fun r => (r, p.2))) := by
  conv_lhs => rw [pow.eq_def]
  have hpos : simplify ⟨.Negative, n, 1⟩ = (⟨.Negative, n, 1⟩ : BigRat) :=
    simplify_of_den_one _ rfl
  simp only [hpos, dif_pos]
  rw [pow_simplify_left]
  cases pow a ⟨.Positive, n, 1⟩ with
  | error e => rfl
  | ok p =>
    cases p with
    | mk r ex =>
      show (match div (fromNat 1) r with
        | Except.error e => Except.error e
        | Except.ok q => Except.ok (q, ex)) =
        (div (fromNat 1) r).map (fun q => (q, ex))
      cases div (fromNat 1) r with
      | error e => rfl
      | ok q => rfl

/-- Witness for C7 at `a = 2/3`, `n = 3`. -/
theorem pow_neg_reciprocal_witness :
    pow ⟨.Positive, 2, 3⟩ ⟨.Negative, 3, 1⟩ =
      (pow ⟨.Positive, 2, 3⟩ ⟨.Positive, 3, 1⟩).bind
        (fun p => (div (fromNat 1) p.1).map (fun r => (r, p.2))) :=
  pow_neg_reciprocal ⟨.Positive, 2, 3⟩ 3 (by decide)

/-- Claim C9: `pow` with an exponent whose stored sign is `Positive` and
which normalizes to an integer always returns a result with stored sign
`Positive`, ignoring the base's sign: the result is
`|base|.num ^ e / |base|.den ^ e` regardless of `base.sign`
(so `pow(-2, 3) = +8`). -/
theorem pow_integer_sign_positive (a rhs : BigRat) (h1 : rhs.sign = .Positive)
    (h2 : (simplify rhs).den = 1) :
    pow a rhs = .ok (⟨.Positive, (simplify a).num ^ (simplify rhs).num,
      (simplify a).den ^ (simplify rhs).num⟩, true) := by
  have hns : ¬((simplify rhs).sign = Sign.Negative) := by
    rw [simplify_sign, h1]
    exact fun hc => Sign.noConfusion hc
  rw [pow.eq_def]
  simp only [dif_neg hns, dif_pos h2]

/-- Witness for C9: `pow(-2, 3) = +8` with exactness `true`. -/
theorem pow_integer_sign_positive_witness :
    pow ⟨.Negative, 2, 1⟩ ⟨.Positive, 3, 1⟩ = .ok (⟨.Positive, 8, 1⟩, true) :=
  pow_integer_sign_positive ⟨.Negative, 2, 1⟩ ⟨.Positive, 3, 1⟩ rfl rfl

/-- Claim C4 counterexample: a zero stored with the `Negative` sign tag is
rejected by `root_n` (the sign check precedes the zero-numerator check), so
`root_n` does error on a zero-valued input with order 2, contradicting the
claim for "either stored sign tag". -/
theorem root_n_negative_zero_errors :
    root_n ⟨.Negative, 0, 1⟩ ⟨.Positive, 2, 1⟩ =
      .error "Can\x27t compute roots of negative numbers" := by
  rw [root_n.eq_def]
  rfl

/-- Claim C4 (amended): for every fraction whose numerator is zero and whose
stored sign tag is `Positive`, and every order `n` with sign tag `Positive`
that simplifies to an integer, `root_n` returns its input (a zero) with the
exactness flag `true`; a zero stored with the `Negative` tag instead raises
the negative-base error. -/
theorem root_n_zero (x n : BigRat) (hx : x.num = 0) (hs : x.sign = .Positive)
    (hn : n.sign = .Positive) (hd : (simplify n).den = 1) :
    root_n x n = .ok (x, true) := by
  have hs2 : ¬(x.sign = Sign.Negative) := by
    rw [hs]
    exact fun hc => Sign.noConfusion hc
  have hcond : ¬((simplify n).den ≠ 1 ∨ (simplify n).sign = Sign.Negative) := by
    push_neg
    refine ⟨hd, ?_⟩
    rw [simplify_sign, hn]
    exact fun hc => Sign.noConfusion hc
  rw [root_n.eq_def]
  simp only [if_neg hs2, if_neg hcond, if_pos hx]

/-- Witness for the amended C4 at the zero `0/7` (positive tag), order 3. -/
theorem root_n_zero_witness :
    root_n ⟨.Positive, 0, 7⟩ ⟨.Positive, 3, 1⟩ = .ok (⟨.Positive, 0, 7⟩, true) :=
  root_n_zero ⟨.Positive, 0, 7⟩ ⟨.Positive, 3, 1⟩ rfl rfl rfl rfl

/-! ### Claim C5 and the spec's other concrete formatting scenarios -/

/-- Claim C5 counterexample: formatting `1/3` in base 10 with style
`ExactFloatWithFractionFallback` prints the fraction `"1/3"` (the fallback
branch fires because `1/3` does not terminate in base 10), not `"0.(3)"`. -/
theorem format_one_third_fallback_counterexample :
    format ⟨.Positive, 1, 3⟩ 10 .ExactFloatWithFractionFallback false
        = some ("1/3", true) ∧
      format ⟨.Positive, 1, 3⟩ 10 .ExactFloatWithFractionFallback false
        ≠ some ("0.(3)", true) := by
  constructor
  · decide
  · decide

/-- Claim C5 (amended): formatting `1/3` in base 10 with style
`ExactFloatWithFractionFallback` produces `"1/3"` and reports the result as
exact. -/
theorem format_one_third_fallback :
    format ⟨.Positive, 1, 3⟩ 10 .ExactFloatWithFractionFallback false
      = some ("1/3", true) := by
  decide

/-- The output `"0.(3)"` (exact) the spec scenario expected is produced by
style `ExactFloat`, whose digit loop detects the repeating cycle. -/
theorem format_one_third_exact_float :
    format ⟨.Positive, 1, 3⟩ 10 .ExactFloat false = some ("0.(3)", true) := by
  decide

/-- Spec scenario: `1/4` formats (base 10, float style) as `"0.25"`, exact. -/
theorem format_one_quarter :
    format ⟨.Positive, 1, 4⟩ 10 .ExactFloatWithFractionFallback false
      = some ("0.25", true) := by
  decide

/-- Spec scenario: `1/3` formats (base 10, `ApproxFloat 2`) as `"0.33"`,
inexact. -/
theorem format_one_third_approx_two :
    format ⟨.Positive, 1, 3⟩ 10 (.ApproxFloat 2) false = some ("0.33", false) := by
  decide

/-- Spec scenario: `2 + 2` formats (base 10) as `"4"`, exact. -/
theorem format_two_plus_two :
    format (add_internal (fromNat 2) (fromNat 2)) 10
      .ExactFloatWithFractionFallback false = some ("4", true) := by
  decide

/-- Spec scenario (also a unit test of the source): `16/9 < 2`. -/
theorem cmp_sixteen_ninths_two : cmp ⟨.Positive, 16, 9⟩ (fromNat 2) = .lt := by
  decide

/-- The other `ApproxFloat(0)` defect: when the first remainder does reach
zero (here `1/2` in base 10) the loop emits one digit although zero digits
were requested, because the zero-remainder exit fires before the (never
matching) cutoff check. -/
theorem fmtLoopF_approx_zero_overshoot :
    fmtLoopF 10 2 2 1 [] 0 (some 0) [] = some ("5", true) := by
  decide

end BigRat
